import Mathlib

/-!
Formal model of the `GetDummies` one-hot encoder from the
fast-one-hot-encoder notebook.

The encoder wraps the external one-hot expansion primitive
`pandas.get_dummies(X, columns=...)`.  The primitive is an external
collaborator of the repository; it is modelled here from the spec's
collaborator contract (section 6): each named column present in the table
is replaced by one indicator column per distinct observed value, named
`name_value`, row order preserved, non-named columns pass through
unchanged, and per the transform description a named column absent from
the table is simply not re-selected.  Everything else (`fit`,
`transform`, `get_feature_names`, `fit_transform`, the encoder state) is
translated directly from the notebook's `GetDummies` class.
-/

namespace FastOneHot

/-- A cell value: free text / categorical, or numeric. -/
inductive Value where
  | str : String → Value
  | num : Int → Value
deriving DecidableEq

/-- Column dtype tags: object (free text), category, numeric. -/
inductive Dtype where
  | obj : Dtype
  | cat : Dtype
  | num : Dtype
deriving DecidableEq

/-- Rendering of a value inside a dummy-column name `name_value`. -/
def Value.render : Value → String
  | Value.str s => s
  | Value.num n => toString n

/-- A named column with a declared dtype and its cell values. -/
structure Column where
  name : String
  dtype : Dtype
  values : List Value
deriving DecidableEq

/-- A table: an ordered collection of named columns plus its row count. -/
structure Table where
  cols : List Column
  nrows : Nat
deriving DecidableEq

/-- The column-name sequence of a table. -/
def Table.colNames (X : Table) : List String :=
  X.cols.map Column.name

/-- First column with the given name, as `X[name]` column lookup. -/
def findByName (n : String) : List Column → Option Column
  | [] => none
  | c :: l => if c.name = n then some c else findByName n l

def Table.findCol (X : Table) (n : String) : Option Column :=
  findByName n X.cols

/-- Distinct observed values of a column, first-observed order. -/
def dedupFirst (l : List Value) : List Value :=
  l.foldl (fun acc v => if v ∈ acc then acc else acc ++ [v]) []

/-- 0/1 indicator of value `v` over a value sequence. -/
def indicator (v : Value) (vals : List Value) : List Value :=
  vals.map (fun x => if x = v then Value.num 1 else Value.num 0)

/-- Indicator columns replacing one encoded column: one column per
distinct observed value, named `name_value`. -/
def dummyCols (c : Column) : List Column :=
  (dedupFirst c.values).map (fun v =>
    Column.mk (c.name ++ "_" ++ v.render) Dtype.num (indicator v c.values))

/-- Columns whose name is not in `enc`, as `X.drop(enc, axis=1)`. -/
def keepCols (enc : List String) : List Column → List Column
  | [] => []
  | c :: l => if c.name ∈ enc then keepCols enc l else c :: keepCols enc l

/-- The columns of the table named by `enc`, in `enc` order; a name with
no matching column contributes nothing. -/
def lookupCols (l : List Column) : List String → List Column
  | [] => []
  | n :: ns =>
    match findByName n l with
    | some c => c :: lookupCols l ns
    | none => lookupCols l ns

/-- Concatenation of the expansions of a list of columns. -/
def concatMapCols (f : Column → List Column) : List Column → List Column
  | [] => []
  | c :: l => f c ++ concatMapCols f l

/-- `pandas.get_dummies(X, columns=enc)`: non-named columns pass through
in order, followed by one indicator block per named column present in
`X`, in `enc` order.  Modelled from the spec's expansion-primitive
contract. -/
def getDummiesCols (X : Table) (enc : List String) : Table :=
  Table.mk (keepCols enc X.cols ++ concatMapCols dummyCols (lookupCols X.cols enc))
    X.nrows

/-- Columns whose declared dtype is among the selectors, as
`X.select_dtypes(dtypes)`. -/
def selectByDtype (dts : List Dtype) : List Column → List Column
  | [] => []
  | c :: l => if c.dtype ∈ dts then c :: selectByDtype dts l else selectByDtype dts l

/-- `pandas.get_dummies(X)` with `columns=None`: pandas encodes the
object- and category-dtype columns. -/
def getDummiesDefault (X : Table) : Table :=
  getDummiesCols X ((selectByDtype [Dtype.obj, Dtype.cat] X.cols).map Column.name)

/-- The encoder state: `input_columns` and `final_columns` start as
`None` and are set by `fit`; `dtypes` is fixed at construction. -/
structure GetDummies where
  input_columns : Option (List String)
  final_columns : Option (List String)
  dtypes : List Dtype
deriving DecidableEq

/-- `GetDummies.__init__(dtypes=None)`: empty state; the dtype selectors
default to `[object, 'category']`. -/
def GetDummies.init (dts : Option (List Dtype)) : GetDummies :=
  GetDummies.mk none none (dts.getD [Dtype.obj, Dtype.cat])

/-- `list(X.select_dtypes(self.dtypes).columns)`: the categorical column
names `fit` records. -/
def GetDummies.inputOf (g : GetDummies) (X : Table) : List String :=
  (selectByDtype g.dtypes X.cols).map Column.name

/-- The table `fit` produces internally: the one-hot expansion of `X`
over the selected categorical columns. -/
def GetDummies.fitFrame (g : GetDummies) (X : Table) : Table :=
  getDummiesCols X (g.inputOf X)

/-- `GetDummies.fit`: record the selected categorical column names and
the full column sequence of the expanded table. -/
def GetDummies.fit (g : GetDummies) (X : Table) : GetDummies :=
  GetDummies.mk (some (g.inputOf X)) (some (g.fitFrame X).colNames) g.dtypes

/-- `X[ns]` column selection: each requested name resolved in order; a
missing name is a lookup error (`KeyError`). -/
def selectCols (l : List Column) : List String → Option (List Column)
  | [] => some []
  | n :: ns =>
    match findByName n l, selectCols l ns with
    | some c, some cs => some (c :: cs)
    | _, _ => none

def Table.select (X : Table) (ns : List String) : Option Table :=
  (selectCols X.cols ns).map (fun cs => Table.mk cs X.nrows)

/-- An all-zero integer column of the given name and length, as created
by `X[c] = 0`. -/
def zeroCol (n : String) (len : Nat) : Column :=
  Column.mk n Dtype.num (List.replicate len (Value.num 0))

/-- Append one all-zero column per name in `ms`, as the loop
`for c in missing: X[c] = 0`. -/
def addZeros (X : Table) (ms : List String) : Table :=
  Table.mk (X.cols ++ ms.map (fun n => zeroCol n X.nrows)) X.nrows

/-- The names of `fcols` absent from `produced`, i.e.
`set(final_columns) - set(X_columns)` filtered in `fcols` order. -/
def missingNames (produced : List String) : List String → List String
  | [] => []
  | n :: ns =>
    if n ∈ produced then missingNames produced ns else n :: missingNames produced ns

def missingOf (fcols produced : List String) : List String :=
  missingNames produced fcols

/-- The transform pipeline with an explicit iteration order for the
missing-column set (the Python `set` has no fixed order). -/
def transformCore (enc fcols : List String) (X : Table) (order : List String) :
    Option Table :=
  (addZeros (getDummiesCols X enc) order).select fcols

/-- `GetDummies.transform`: expand with the fit-time `input_columns`
(`columns=None` pandas default if unfit), zero-fill the recorded names
absent from the produced columns, then select `final_columns`; an unfit
encoder has `final_columns = None` and errors. -/
def GetDummies.transform (g : GetDummies) (X : Table) : Option Table :=
  let Xe := match g.input_columns with
    | some enc => getDummiesCols X enc
    | none => getDummiesDefault X
  match g.final_columns with
  | some fcols => (addZeros Xe (missingOf fcols Xe.colNames)).select fcols
  | none => none

/-- `TransformerMixin.fit_transform`: `self.fit(X).transform(X)`. -/
def GetDummies.fit_transform (g : GetDummies) (X : Table) : Option Table :=
  (g.fit X).transform X

/-- `GetDummies.get_feature_names`: `tuple(self.final_columns)`; errors
on the unfit `None` state. -/
def GetDummies.get_feature_names (g : GetDummies) : Option (List String) :=
  g.final_columns

/-- Retag the dtype of each column named in `enc`, leaving names and
values unchanged: the recorded categorical columns appearing at
transform time with arbitrary other dtypes. -/
def retagFun (enc : List String) (f : Column → Dtype) (c : Column) : Column :=
  if c.name ∈ enc then Column.mk c.name (f c) c.values else c

def retagEncoded (enc : List String) (f : Column → Dtype) (X : Table) : Table :=
  Table.mk (X.cols.map (retagFun enc f)) X.nrows

/-! Basic facts about column lookup, selection and the zero-fill step. -/

theorem findByName_eq_some_name {n : String} {c : Column} :
    ∀ {l : List Column}, findByName n l = some c → c.name = n := by
  intro l
  induction l with
  | nil => intro h; simp [findByName] at h
  | cons d l ih =>
    intro h
    by_cases hd : d.name = n
    · rw [findByName, if_pos hd] at h
      cases h
      exact hd
    · rw [findByName, if_neg hd] at h
      exact ih h

theorem findByName_eq_some_mem {n : String} {c : Column} :
    ∀ {l : List Column}, findByName n l = some c → c ∈ l := by
  intro l
  induction l with
  | nil => intro h; simp [findByName] at h
  | cons d l ih =>
    intro h
    by_cases hd : d.name = n
    · rw [findByName, if_pos hd] at h
      cases h
      exact List.mem_cons_self _ _
    · rw [findByName, if_neg hd] at h
      exact List.mem_cons_of_mem _ (ih h)

theorem findByName_eq_none_iff {n : String} :
    ∀ {l : List Column}, findByName n l = none ↔ n ∉ l.map Column.name := by
  intro l
  induction l with
  | nil => simp [findByName]
  | cons d l ih =>
    by_cases hd : d.name = n
    · simp [findByName, if_pos hd, hd]
    · simp only [findByName, if_neg hd, List.map_cons, List.mem_cons, ih]
      constructor
      · intro h hmem
        rcases hmem with h1 | h2
        · exact hd h1.symm
        · exact h h2
      · intro h hmem
        exact h (Or.inr hmem)

theorem findByName_isSome_iff {n : String} {l : List Column} :
    (findByName n l).isSome ↔ n ∈ l.map Column.name := by
  cases hf : findByName n l with
  | none =>
    simp only [Option.isSome_none, Bool.false_eq_true, false_iff]
    exact findByName_eq_none_iff.mp hf
  | some c =>
    simp only [Option.isSome_some, true_iff]
    exact List.mem_map.mpr ⟨c, findByName_eq_some_mem hf, findByName_eq_some_name hf⟩

theorem findByName_append_left {n : String} {c : Column} {l₁ : List Column}
    (l₂ : List Column) (h : findByName n l₁ = some c) :
    findByName n (l₁ ++ l₂) = some c := by
  induction l₁ with
  | nil => simp [findByName] at h
  | cons d l ih =>
    by_cases hd : d.name = n
    · rw [findByName, if_pos hd] at h
      rw [List.cons_append, findByName, if_pos hd]
      exact h
    · rw [findByName, if_neg hd] at h
      rw [List.cons_append, findByName, if_neg hd]
      exact ih h

theorem findByName_append_right {n : String} {l₁ : List Column}
    (l₂ : List Column) (h : findByName n l₁ = none) :
    findByName n (l₁ ++ l₂) = findByName n l₂ := by
  induction l₁ with
  | nil => rfl
  | cons d l ih =>
    by_cases hd : d.name = n
    · rw [findByName, if_pos hd] at h
      cases h
    · rw [findByName, if_neg hd] at h
      rw [List.cons_append, findByName, if_neg hd]
      exact ih h

theorem findByName_zeroCols_mem {n : String} {len : Nat} :
    ∀ {ms : List String}, n ∈ ms →
      findByName n (ms.map (fun m => zeroCol m len)) = some (zeroCol n len) := by
  intro ms
  induction ms with
  | nil => intro h; cases h
  | cons m ms ih =>
    intro h
    by_cases hm : m = n
    · subst hm
      rw [List.map_cons, findByName, if_pos (show (zeroCol m len).name = m from rfl)]
    · rw [List.map_cons, findByName,
        if_neg (show ¬(zeroCol m len).name = n from hm)]
      rcases List.mem_cons.mp h with h1 | h2
      · exact absurd h1.symm hm
      · exact ih h2

theorem findByName_zeroCols_not_mem {n : String} {len : Nat}
    {ms : List String} (h : n ∉ ms) :
    findByName n (ms.map (fun m => zeroCol m len)) = none := by
  apply findByName_eq_none_iff.mpr
  intro hmem
  rcases List.mem_map.mp hmem with ⟨m, hm, hname⟩
  rcases List.mem_map.mp hm with ⟨m0, hm0, rfl⟩
  exact h (hname ▸ hm0)

theorem findByName_self_of_nodup {c : Column} :
    ∀ {l : List Column}, (l.map Column.name).Nodup → c ∈ l →
      findByName c.name l = some c := by
  intro l
  induction l with
  | nil => intro _ h; cases h
  | cons d l ih =>
    intro hnd hmem
    rw [List.map_cons, List.nodup_cons] at hnd
    rcases List.mem_cons.mp hmem with rfl | hmem
    · rw [findByName, if_pos rfl]
    · by_cases hd : d.name = c.name
      · exact absurd (hd ▸ List.mem_map_of_mem Column.name hmem) hnd.1
      · rw [findByName, if_neg hd]
        exact ih hnd.2 hmem

theorem name_inj_of_nodup {c d : Column} :
    ∀ {l : List Column}, (l.map Column.name).Nodup → c ∈ l → d ∈ l →
      c.name = d.name → c = d := by
  intro l hnd hc hd heq
  have h1 := findByName_self_of_nodup hnd hc
  have h2 := findByName_self_of_nodup hnd hd
  rw [heq] at h1
  rw [h1] at h2
  cases h2
  rfl

theorem selectCols_names {l : List Column} :
    ∀ {ns : List String} {cs : List Column}, selectCols l ns = some cs →
      cs.map Column.name = ns := by
  intro ns
  induction ns with
  | nil =>
    intro cs h
    rw [selectCols] at h
    cases h
    rfl
  | cons n ns ih =>
    intro cs h
    rw [selectCols] at h
    cases hf : findByName n l with
    | none => rw [hf] at h; cases h
    | some c =>
      cases hr : selectCols l ns with
      | none => rw [hf, hr] at h; cases h
      | some cs0 =>
        rw [hf, hr] at h
        cases h
        rw [List.map_cons, findByName_eq_some_name hf, ih hr]

theorem selectCols_isSome {l : List Column} :
    ∀ {ns : List String}, (∀ n ∈ ns, n ∈ l.map Column.name) →
      ∃ cs, selectCols l ns = some cs := by
  intro ns
  induction ns with
  | nil => intro _; exact ⟨[], rfl⟩
  | cons n ns ih =>
    intro h
    have hn : (findByName n l).isSome :=
      findByName_isSome_iff.mpr (h n (List.mem_cons_self _ _))
    rcases Option.isSome_iff_exists.mp hn with ⟨c, hc⟩
    rcases ih (fun m hm => h m (List.mem_cons_of_mem _ hm)) with ⟨cs, hcs⟩
    refine ⟨c :: cs, ?_⟩
    rw [selectCols, hc, hcs]

theorem selectCols_findByName {l : List Column} :
    ∀ {ns : List String} {cs : List Column}, selectCols l ns = some cs →
      ∀ n ∈ ns, findByName n cs = findByName n l := by
  intro ns
  induction ns with
  | nil => intro cs _ n hn; cases hn
  | cons m ns ih =>
    intro cs h n hn
    rw [selectCols] at h
    cases hf : findByName m l with
    | none => rw [hf] at h; cases h
    | some c =>
      cases hr : selectCols l ns with
      | none => rw [hf, hr] at h; cases h
      | some cs0 =>
        rw [hf, hr] at h
        cases h
        by_cases hcn : c.name = n
        · rw [findByName, if_pos hcn]
          have : m = n := (findByName_eq_some_name hf) ▸ hcn
          rw [← this, hf]
        · rw [findByName, if_neg hcn]
          have hm : m ≠ n := fun he => hcn ((findByName_eq_some_name hf).trans he)
          rcases List.mem_cons.mp hn with rfl | hn2
          · exact absurd rfl hm
          · exact ih hr n hn2

theorem selectCols_congr {l₁ l₂ : List Column} :
    ∀ {ns : List String}, (∀ n ∈ ns, findByName n l₁ = findByName n l₂) →
      selectCols l₁ ns = selectCols l₂ ns := by
  intro ns
  induction ns with
  | nil => intro _; rfl
  | cons n ns ih =>
    intro h
    rw [selectCols, selectCols, h n (List.mem_cons_self _ _),
      ih (fun m hm => h m (List.mem_cons_of_mem _ hm))]

theorem selectCols_of_each {l : List Column} :
    ∀ {cs : List Column}, (∀ c ∈ cs, findByName c.name l = some c) →
      selectCols l (cs.map Column.name) = some cs := by
  intro cs
  induction cs with
  | nil => intro _; rfl
  | cons c cs ih =>
    intro h
    rw [List.map_cons, selectCols, h c (List.mem_cons_self _ _),
      ih (fun d hd => h d (List.mem_cons_of_mem _ hd))]

theorem mem_keepCols {enc : List String} {c : Column} :
    ∀ {l : List Column}, c ∈ keepCols enc l ↔ c ∈ l ∧ c.name ∉ enc := by
  intro l
  induction l with
  | nil => simp [keepCols]
  | cons d l ih =>
    by_cases hd : d.name ∈ enc
    · rw [keepCols, if_pos hd]
      constructor
      · intro h
        exact ⟨List.mem_cons_of_mem _ (ih.mp h).1, (ih.mp h).2⟩
      · intro ⟨h1, h2⟩
        rcases List.mem_cons.mp h1 with rfl | h3
        · exact absurd hd h2
        · exact ih.mpr ⟨h3, h2⟩
    · rw [keepCols, if_neg hd]
      constructor
      · intro h
        rcases List.mem_cons.mp h with rfl | h2
        · exact ⟨List.mem_cons_self _ _, hd⟩
        · exact ⟨List.mem_cons_of_mem _ (ih.mp h2).1, (ih.mp h2).2⟩
      · intro ⟨h1, h2⟩
        rcases List.mem_cons.mp h1 with rfl | h3
        · exact List.mem_cons_self _ _
        · exact List.mem_cons_of_mem _ (ih.mpr ⟨h3, h2⟩)

theorem mem_selectByDtype {dts : List Dtype} {c : Column} :
    ∀ {l : List Column}, c ∈ selectByDtype dts l ↔ c ∈ l ∧ c.dtype ∈ dts := by
  intro l
  induction l with
  | nil => simp [selectByDtype]
  | cons d l ih =>
    by_cases hd : d.dtype ∈ dts
    · rw [selectByDtype, if_pos hd]
      constructor
      · intro h
        rcases List.mem_cons.mp h with rfl | h2
        · exact ⟨List.mem_cons_self _ _, hd⟩
        · exact ⟨List.mem_cons_of_mem _ (ih.mp h2).1, (ih.mp h2).2⟩
      · intro ⟨h1, h2⟩
        rcases List.mem_cons.mp h1 with rfl | h3
        · exact List.mem_cons_self _ _
        · exact List.mem_cons_of_mem _ (ih.mpr ⟨h3, h2⟩)
    · rw [selectByDtype, if_neg hd]
      constructor
      · intro h
        exact ⟨List.mem_cons_of_mem _ (ih.mp h).1, (ih.mp h).2⟩
      · intro ⟨h1, h2⟩
        rcases List.mem_cons.mp h1 with rfl | h3
        · exact absurd h2 hd
        · exact ih.mpr ⟨h3, h2⟩

theorem mem_missingNames {produced : List String} {n : String} :
    ∀ {ns : List String}, n ∈ missingNames produced ns ↔ n ∈ ns ∧ n ∉ produced := by
  intro ns
  induction ns with
  | nil => simp [missingNames]
  | cons m ns ih =>
    by_cases hm : m ∈ produced
    · rw [missingNames, if_pos hm]
      constructor
      · intro h
        exact ⟨List.mem_cons_of_mem _ (ih.mp h).1, (ih.mp h).2⟩
      · intro ⟨h1, h2⟩
        rcases List.mem_cons.mp h1 with rfl | h3
        · exact absurd hm h2
        · exact ih.mpr ⟨h3, h2⟩
    · rw [missingNames, if_neg hm]
      constructor
      · intro h
        rcases List.mem_cons.mp h with rfl | h2
        · exact ⟨List.mem_cons_self _ _, hm⟩
        · exact ⟨List.mem_cons_of_mem _ (ih.mp h2).1, (ih.mp h2).2⟩
      · intro ⟨h1, h2⟩
        rcases List.mem_cons.mp h1 with rfl | h3
        · exact List.mem_cons_self _ _
        · exact List.mem_cons_of_mem _ (ih.mpr ⟨h3, h2⟩)

theorem missingNames_eq_nil {produced : List String} :
    ∀ {ns : List String}, (∀ n ∈ ns, n ∈ produced) →
      missingNames produced ns = [] := by
  intro ns
  induction ns with
  | nil => intro _; rfl
  | cons n ns ih =>
    intro h
    rw [missingNames, if_pos (h n (List.mem_cons_self _ _))]
    exact ih (fun m hm => h m (List.mem_cons_of_mem _ hm))

theorem addZeros_colNames (X : Table) (ms : List String) :
    (addZeros X ms).colNames = X.colNames ++ ms := by
  show (X.cols ++ ms.map (fun n => zeroCol n X.nrows)).map Column.name = _
  rw [List.map_append, List.map_map]
  congr 1
  exact List.map_id' ms

theorem addZeros_findByName_left {X : Table} {ms : List String} {n : String}
    (h : n ∈ X.colNames) :
    findByName n (addZeros X ms).cols = findByName n X.cols := by
  rcases Option.isSome_iff_exists.mp (findByName_isSome_iff.mpr h) with ⟨c, hc⟩
  rw [hc]
  exact findByName_append_left _ hc

theorem addZeros_findByName_right {X : Table} {ms : List String} {n : String}
    (h : n ∉ X.colNames) :
    findByName n (addZeros X ms).cols =
      if n ∈ ms then some (zeroCol n X.nrows) else none := by
  have h0 : findByName n X.cols = none := findByName_eq_none_iff.mpr h
  show findByName n (X.cols ++ _) = _
  rw [findByName_append_right _ h0]
  by_cases hm : n ∈ ms
  · rw [if_pos hm]
    exact findByName_zeroCols_mem hm
  · rw [if_neg hm]
    exact findByName_zeroCols_not_mem hm

/-! Facts about the fitted transform pipeline. -/

theorem transform_fit_eq (g0 : GetDummies) (T U : Table) :
    (g0.fit T).transform U =
      (addZeros (getDummiesCols U (g0.inputOf T))
        (missingOf (g0.fitFrame T).colNames
          (getDummiesCols U (g0.inputOf T)).colNames)).select
        (g0.fitFrame T).colNames := rfl

theorem transform_fit_master (g0 : GetDummies) (T U : Table) :
    ∃ X, (g0.fit T).transform U = some X ∧
      X.colNames = (g0.fitFrame T).colNames ∧
      X.nrows = U.nrows ∧
      ∀ n ∈ (g0.fitFrame T).colNames,
        X.findCol n =
          findByName n
            (addZeros (getDummiesCols U (g0.inputOf T))
              (missingOf (g0.fitFrame T).colNames
                (getDummiesCols U (g0.inputOf T)).colNames)).cols := by
  have hall : ∀ n ∈ (g0.fitFrame T).colNames,
      n ∈ (addZeros (getDummiesCols U (g0.inputOf T))
            (missingOf (g0.fitFrame T).colNames
              (getDummiesCols U (g0.inputOf T)).colNames)).cols.map Column.name := by
    intro n hn
    have hrw : (addZeros (getDummiesCols U (g0.inputOf T))
        (missingOf (g0.fitFrame T).colNames
          (getDummiesCols U (g0.inputOf T)).colNames)).cols.map Column.name =
        (getDummiesCols U (g0.inputOf T)).colNames ++
          missingOf (g0.fitFrame T).colNames
            (getDummiesCols U (g0.inputOf T)).colNames :=
      addZeros_colNames _ _
    rw [hrw]
    by_cases hmem : n ∈ (getDummiesCols U (g0.inputOf T)).colNames
    · exact List.mem_append_left _ hmem
    · exact List.mem_append_right _ (mem_missingNames.mpr ⟨hn, hmem⟩)
  rcases selectCols_isSome hall with ⟨cs, hcs⟩
  refine ⟨Table.mk cs U.nrows, ?_, selectCols_names hcs, rfl, ?_⟩
  · rw [transform_fit_eq]
    show (selectCols _ _).map _ = _
    rw [hcs]
    rfl
  · intro n hn
    show findByName n cs = _
    exact selectCols_findByName hcs n hn

theorem keepCols_nil : ∀ l : List Column, keepCols [] l = l := by
  intro l
  induction l with
  | nil => rfl
  | cons c l ih => rw [keepCols, if_neg (List.not_mem_nil _), ih]

theorem getDummiesCols_nil (X : Table) : getDummiesCols X [] = X := by
  show Table.mk (keepCols [] X.cols ++ concatMapCols dummyCols (lookupCols X.cols []))
    X.nrows = X
  rw [keepCols_nil]
  show Table.mk (X.cols ++ []) X.nrows = X
  rw [List.append_nil]

theorem selectByDtype_eq_nil {dts : List Dtype} :
    ∀ {l : List Column}, (∀ c ∈ l, c.dtype ∉ dts) → selectByDtype dts l = [] := by
  intro l
  induction l with
  | nil => intro _; rfl
  | cons c l ih =>
    intro h
    rw [selectByDtype, if_neg (h c (List.mem_cons_self _ _))]
    exact ih (fun d hd => h d (List.mem_cons_of_mem _ hd))

theorem transform_fit_self_aux (g0 : GetDummies) (T : Table)
    (h : (g0.fitFrame T).colNames.Nodup) :
    (g0.fit T).transform T = some (g0.fitFrame T) := by
  have hms : missingOf (g0.fitFrame T).colNames (g0.fitFrame T).colNames = [] :=
    missingNames_eq_nil (fun n hn => hn)
  have hz : addZeros (g0.fitFrame T) [] = g0.fitFrame T := by
    show Table.mk ((g0.fitFrame T).cols ++ []) (g0.fitFrame T).nrows = _
    rw [List.append_nil]
  have hsel : (g0.fitFrame T).select (g0.fitFrame T).colNames =
      some (g0.fitFrame T) := by
    have heach : ∀ c ∈ (g0.fitFrame T).cols,
        findByName c.name (g0.fitFrame T).cols = some c :=
      fun c hc => findByName_self_of_nodup h hc
    show (selectCols (g0.fitFrame T).cols
        ((g0.fitFrame T).cols.map Column.name)).map
        (fun cs => Table.mk cs (g0.fitFrame T).nrows) = some (g0.fitFrame T)
    rw [selectCols_of_each heach]
    rfl
  calc (g0.fit T).transform T
      = (addZeros (g0.fitFrame T)
          (missingOf (g0.fitFrame T).colNames (g0.fitFrame T).colNames)).select
          (g0.fitFrame T).colNames := rfl
    _ = some (g0.fitFrame T) := by rw [hms, hz, hsel]

/-! Dtype-retagging of the recorded categorical columns is invisible to
the expansion: `get_dummies(X, columns=enc)` selects by name, and the
indicator construction reads only names and values. -/

theorem retagFun_name (enc : List String) (f : Column → Dtype) (c : Column) :
    (retagFun enc f c).name = c.name := by
  rw [retagFun]
  split <;> rfl

theorem keepCols_retag (enc : List String) (f : Column → Dtype) :
    ∀ l : List Column, keepCols enc (l.map (retagFun enc f)) = keepCols enc l := by
  intro l
  induction l with
  | nil => rfl
  | cons c l ih =>
    rw [List.map_cons, keepCols, keepCols]
    by_cases hc : c.name ∈ enc
    · rw [if_pos (by rw [retagFun_name]; exact hc), if_pos hc, ih]
    · have hr : retagFun enc f c = c := by rw [retagFun, if_neg hc]
      rw [if_neg (by rw [retagFun_name]; exact hc), if_neg hc, ih, hr]

theorem findByName_retag (enc : List String) (f : Column → Dtype) (n : String) :
    ∀ l : List Column, findByName n (l.map (retagFun enc f)) =
      (findByName n l).map (retagFun enc f) := by
  intro l
  induction l with
  | nil => rfl
  | cons c l ih =>
    rw [List.map_cons, findByName, findByName]
    by_cases hc : c.name = n
    · rw [if_pos (by rw [retagFun_name]; exact hc), if_pos hc]
      rfl
    · rw [if_neg (by rw [retagFun_name]; exact hc), if_neg hc, ih]

theorem lookupCols_retag (enc : List String) (f : Column → Dtype) (l : List Column) :
    ∀ ms : List String, lookupCols (l.map (retagFun enc f)) ms =
      (lookupCols l ms).map (retagFun enc f) := by
  intro ms
  induction ms with
  | nil => rfl
  | cons n ms ih =>
    rw [lookupCols, lookupCols, findByName_retag]
    cases hf : findByName n l with
    | none => simp only [Option.map_none', ih]
    | some c => simp only [Option.map_some', ih, List.map_cons]

theorem dummyCols_retag (enc : List String) (f : Column → Dtype) (c : Column) :
    dummyCols (retagFun enc f c) = dummyCols c := by
  rw [retagFun]
  split <;> rfl

theorem concatMap_dummy_retag (enc : List String) (f : Column → Dtype) :
    ∀ l : List Column, concatMapCols dummyCols (l.map (retagFun enc f)) =
      concatMapCols dummyCols l := by
  intro l
  induction l with
  | nil => rfl
  | cons c l ih =>
    rw [List.map_cons, concatMapCols, concatMapCols, dummyCols_retag, ih]

theorem getDummies_retag (enc : List String) (f : Column → Dtype) (U : Table) :
    getDummiesCols (retagEncoded enc f U) enc = getDummiesCols U enc := by
  show Table.mk (keepCols enc (U.cols.map (retagFun enc f)) ++
      concatMapCols dummyCols (lookupCols (U.cols.map (retagFun enc f)) enc))
      U.nrows = _
  rw [keepCols_retag, lookupCols_retag, concatMap_dummy_retag]
  rfl

/-! Concrete sample tables, shaped like the notebook's train/test demo. -/

/-- Fit-time sample: numeric column `f`, object column `b` with values a, c. -/
def sampleFit : Table :=
  Table.mk [Column.mk "f" Dtype.num [Value.num 1, Value.num 2],
    Column.mk "b" Dtype.obj [Value.str "a", Value.str "c"]] 2

/-- The passthrough column of `sampleFit`. -/
def sampleFitF : Column := Column.mk "f" Dtype.num [Value.num 1, Value.num 2]

/-- Transform-time sample: `b` carries only the unseen value e. -/
def sampleNew : Table :=
  Table.mk [Column.mk "f" Dtype.num [Value.num 3],
    Column.mk "b" Dtype.obj [Value.str "e"]] 1

/-- The expected transform output for `sampleNew` under the `sampleFit` state. -/
def sampleOut : Table :=
  Table.mk [Column.mk "f" Dtype.num [Value.num 3],
    Column.mk "b_a" Dtype.num [Value.num 0],
    Column.mk "b_c" Dtype.num [Value.num 0]] 1

/-- A table with only a numeric column: nothing matches the dtype selectors. -/
def sampleNum : Table :=
  Table.mk [Column.mk "g" Dtype.num [Value.num 5]] 1

/-- A transform-time table missing the fit-time passthrough column `f`. -/
def sampleCat : Table :=
  Table.mk [Column.mk "b" Dtype.obj [Value.str "a"]] 1

/-! The claims. -/

/-- Shared core of C2/C10: a recorded output column absent from the
transform-time expansion is returned as the appended all-zero column. -/
theorem zero_fill_aux (g0 : GetDummies) (T U : Table) (n : String)
    (hf : n ∈ (g0.fitFrame T).colNames)
    (hp : n ∉ (getDummiesCols U (g0.inputOf T)).colNames) :
    ∃ X, (g0.fit T).transform U = some X ∧
      X.findCol n = some (zeroCol n U.nrows) := by
  rcases transform_fit_master g0 T U with ⟨X, hX, _, _, hfind⟩
  refine ⟨X, hX, ?_⟩
  rw [hfind n hf, addZeros_findByName_right hp,
    if_pos (show n ∈ missingOf (g0.fitFrame T).colNames
        (getDummiesCols U (g0.inputOf T)).colNames
      from mem_missingNames.mpr ⟨hf, hp⟩)]
  rfl

/-- C1: after fit, every successful transform returns a table whose column
sequence is exactly the recorded output schema, in that order; a name
produced by the transform-time expansion but not in that schema does not
appear in the output. -/
theorem output_schema_fixed (g0 : GetDummies) (T U X : Table)
    (h : (g0.fit T).transform U = some X) :
    X.colNames = (g0.fitFrame T).colNames ∧
    ∀ n ∈ (getDummiesCols U (g0.inputOf T)).colNames,
      n ∉ (g0.fitFrame T).colNames → n ∉ X.colNames := by
  rcases transform_fit_master g0 T U with ⟨X0, h0, hnames, _, _⟩
  rw [h] at h0
  cases Option.some.inj h0
  refine ⟨hnames, ?_⟩
  intro n _ hn
  rw [hnames]
  exact hn

/-- Witness for C1 at the notebook's train/test shape. -/
theorem output_schema_fixed_apply :
    ((GetDummies.init none).fit sampleFit).transform sampleNew = some sampleOut ∧
    sampleOut.colNames = ((GetDummies.init none).fitFrame sampleFit).colNames :=
  ⟨by decide,
    (output_schema_fixed (GetDummies.init none) sampleFit sampleNew sampleOut
      (by decide)).1⟩

/-- C2: a name recorded in the output schema but absent from the columns the
transform-time expansion produced comes back as a column filled entirely
with zero, of length the input table's row count. -/
theorem missing_value_zero_fill (g0 : GetDummies) (T U : Table) (n : String)
    (hf : n ∈ (g0.fitFrame T).colNames)
    (hp : n ∉ (getDummiesCols U (g0.inputOf T)).colNames) :
    ∃ X, (g0.fit T).transform U = some X ∧
      X.findCol n = some (zeroCol n U.nrows) ∧
      (zeroCol n U.nrows).values = List.replicate U.nrows (Value.num 0) := by
  rcases zero_fill_aux g0 T U n hf hp with ⟨X, h1, h2⟩
  exact ⟨X, h1, h2, rfl⟩

/-- Witness for C2: value a was seen at fit time but is absent from
`sampleNew`, so `b_a` is zero-filled. -/
theorem missing_value_zero_fill_apply :
    ("b_a" ∈ ((GetDummies.init none).fitFrame sampleFit).colNames) ∧
    ∃ X, ((GetDummies.init none).fit sampleFit).transform sampleNew = some X ∧
      X.findCol "b_a" = some (zeroCol "b_a" sampleNew.nrows) ∧
      (zeroCol "b_a" sampleNew.nrows).values =
        List.replicate sampleNew.nrows (Value.num 0) :=
  ⟨by decide,
    missing_value_zero_fill (GetDummies.init none) sampleFit sampleNew "b_a"
      (by decide) (by decide)⟩

/-- C3: transform succeeds on every input table after fit, and the expansion
keys on the fit-time recorded `input_columns` by name, not on the new
table's dtypes: retagging the dtypes of the recorded columns leaves the
transform output unchanged (an absent recorded column is skipped, not an
error). -/
theorem transform_total_and_dtype_blind (g0 : GetDummies) (T U : Table)
    (f : Column → Dtype) :
    ((g0.fit T).transform U).isSome ∧
    (g0.fit T).transform (retagEncoded (g0.inputOf T) f U) =
      (g0.fit T).transform U := by
  constructor
  · rcases transform_fit_master g0 T U with ⟨X, hX, _, _, _⟩
    rw [hX]
    rfl
  · rw [transform_fit_eq, transform_fit_eq, getDummies_retag]

/-- C4: on a never-fitted encoder both transform and get_feature_names fail
on the uninitialized `None` state: no table and no names are returned. -/
theorem unfit_calls_fail (dts : Option (List Dtype)) (X : Table) :
    (GetDummies.init dts).transform X = none ∧
    (GetDummies.init dts).get_feature_names = none :=
  ⟨rfl, rfl⟩

/-- C5: transform on the exact fit-time table reproduces the table fit built
internally, and fit_transform is exactly fit followed by transform on the
same table. -/
theorem transform_reproduces_fit (g0 : GetDummies) (T : Table)
    (h : (g0.fitFrame T).colNames.Nodup) :
    (g0.fit T).transform T = some (g0.fitFrame T) ∧
    ∀ U : Table, g0.fit_transform U = (g0.fit U).transform U :=
  ⟨transform_fit_self_aux g0 T h, fun _ => rfl⟩

/-- Witness for C5 on the sample fit table. -/
theorem transform_reproduces_fit_apply :
    ((GetDummies.init none).fitFrame sampleFit).colNames.Nodup ∧
    ((GetDummies.init none).fit sampleFit).transform sampleFit =
      some ((GetDummies.init none).fitFrame sampleFit) :=
  ⟨by decide,
    (transform_reproduces_fit (GetDummies.init none) sampleFit (by decide)).1⟩

/-- C6: when no column matches the dtype selectors, fit records an empty
categorical set, the output schema is the input's column sequence, and
fit-then-transform returns the table unchanged. -/
theorem no_categorical_identity (g0 : GetDummies) (T : Table)
    (hd : ∀ c ∈ T.cols, c.dtype ∉ g0.dtypes) (hn : T.colNames.Nodup) :
    (g0.fit T).input_columns = some [] ∧
    (g0.fit T).final_columns = some T.colNames ∧
    (g0.fit T).transform T = some T := by
  have hsel : g0.inputOf T = [] := by
    show (selectByDtype g0.dtypes T.cols).map Column.name = []
    rw [selectByDtype_eq_nil hd]
    rfl
  have hframe : g0.fitFrame T = T := by
    show getDummiesCols T (g0.inputOf T) = T
    rw [hsel]
    exact getDummiesCols_nil T
  refine ⟨?_, ?_, ?_⟩
  · show some (g0.inputOf T) = some []
    rw [hsel]
  · show some (g0.fitFrame T).colNames = some T.colNames
    rw [hframe]
  · have h2 : (g0.fitFrame T).colNames.Nodup := by
      rw [hframe]
      exact hn
    rw [transform_fit_self_aux g0 T h2, hframe]

/-- Witness for C6 on the numeric-only sample table. -/
theorem no_categorical_identity_apply :
    (∀ c ∈ sampleNum.cols, c.dtype ∉ (GetDummies.init none).dtypes) ∧
    sampleNum.colNames.Nodup ∧
    ((GetDummies.init none).fit sampleNum).transform sampleNum = some sampleNum :=
  ⟨by decide, by decide,
    (no_categorical_identity (GetDummies.init none) sampleNum (by decide)
      (by decide)).2.2⟩

/-- C7: a second fit call fully replaces the state (the result depends only
on the second table), and a name outside the second fit's schema never
appears in the output of a later transform. -/
theorem refit_replaces_state (g0 : GetDummies) (T1 T2 : Table) :
    (g0.fit T1).fit T2 = g0.fit T2 ∧
    ∀ (U X : Table) (n : String), ((g0.fit T1).fit T2).transform U = some X →
      n ∉ (g0.fitFrame T2).colNames → n ∉ X.colNames := by
  refine ⟨rfl, ?_⟩
  intro U X n h hn
  rcases transform_fit_master g0 T2 U with ⟨X0, h0, hnames, _, _⟩
  have hEq : ((g0.fit T1).fit T2).transform U = (g0.fit T2).transform U := rfl
  rw [hEq, h0] at h
  cases Option.some.inj h
  rw [hnames]
  exact hn

/-- Witness for C7: after re-fitting on the numeric table, the stale name
`b_a` from the first fit is absent from the new transform output. -/
theorem refit_replaces_state_apply :
    ((((GetDummies.init none).fit sampleFit).fit sampleNum).transform sampleNum =
      some sampleNum) ∧
    "b_a" ∉ sampleNum.colNames :=
  ⟨by decide,
    (refit_replaces_state (GetDummies.init none) sampleFit sampleNum).2 sampleNum
      sampleNum "b_a" (by decide) (by decide)⟩

/-- C8: get_feature_names after fit returns `output_columns`: the column
sequence of the table fit produced internally. -/
theorem feature_names_after_fit (g0 : GetDummies) (T : Table) :
    (g0.fit T).get_feature_names = some ((g0.fitFrame T).colNames) := rfl

/-- C9: the transform output does not depend on the iteration order of the
set of missing column names: appending the zero columns in any permutation
of that set yields the very same table, so transform is deterministic even
though the Python set has no fixed order. -/
theorem transform_order_independent (g0 : GetDummies) (T U : Table)
    (order : List String)
    (h : order.Perm (missingOf (g0.fitFrame T).colNames
      (getDummiesCols U (g0.inputOf T)).colNames)) :
    transformCore (g0.inputOf T) (g0.fitFrame T).colNames U order =
      (g0.fit T).transform U := by
  rw [transform_fit_eq]
  have hcongr : ∀ n ∈ (g0.fitFrame T).colNames,
      findByName n (addZeros (getDummiesCols U (g0.inputOf T)) order).cols =
      findByName n (addZeros (getDummiesCols U (g0.inputOf T))
        (missingOf (g0.fitFrame T).colNames
          (getDummiesCols U (g0.inputOf T)).colNames)).cols := by
    intro n _
    by_cases hmem : n ∈ (getDummiesCols U (g0.inputOf T)).colNames
    · rw [addZeros_findByName_left hmem, addZeros_findByName_left hmem]
    · rw [addZeros_findByName_right hmem, addZeros_findByName_right hmem]
      by_cases ho : n ∈ order
      · rw [if_pos ho, if_pos (h.mem_iff.mp ho)]
      · rw [if_neg ho, if_neg (fun hc => ho (h.mem_iff.mpr hc))]
  show (selectCols (addZeros (getDummiesCols U (g0.inputOf T)) order).cols
      (g0.fitFrame T).colNames).map
      (fun cs => Table.mk cs
        (addZeros (getDummiesCols U (g0.inputOf T)) order).nrows) = _
  rw [selectCols_congr hcongr]
  rfl

/-- Witness for C9: filling `b_c` before `b_a` gives the same output. -/
theorem transform_order_independent_apply :
    (["b_c", "b_a"].Perm (missingOf ((GetDummies.init none).fitFrame sampleFit).colNames
      (getDummiesCols sampleNew ((GetDummies.init none).inputOf sampleFit)).colNames)) ∧
    transformCore ((GetDummies.init none).inputOf sampleFit)
      ((GetDummies.init none).fitFrame sampleFit).colNames sampleNew ["b_c", "b_a"] =
      ((GetDummies.init none).fit sampleFit).transform sampleNew :=
  ⟨by decide,
    transform_order_independent (GetDummies.init none) sampleFit sampleNew
      ["b_c", "b_a"] (by decide)⟩

/-- C10: a fit-time passthrough column that the transform-time expansion
does not produce (in particular, one absent from the new table) does not
make transform fail: it is returned as an all-zero column of the input's
row count, exactly like a missing indicator column. -/
theorem passthrough_zero_fill (g0 : GetDummies) (T U : Table) (c : Column)
    (hc : c ∈ T.cols) (hd : c.dtype ∉ g0.dtypes) (hT : T.colNames.Nodup)
    (hp : c.name ∉ (getDummiesCols U (g0.inputOf T)).colNames) :
    ∃ X, (g0.fit T).transform U = some X ∧
      X.findCol c.name = some (zeroCol c.name U.nrows) := by
  have hinp : c.name ∉ g0.inputOf T := by
    intro hmem
    rcases List.mem_map.mp hmem with ⟨c2, hc2, hname⟩
    rcases mem_selectByDtype.mp hc2 with ⟨hc2T, hc2d⟩
    have hcc : c2 = c := name_inj_of_nodup hT hc2T hc hname
    exact hd (hcc ▸ hc2d)
  have hkeep : c ∈ keepCols (g0.inputOf T) T.cols := mem_keepCols.mpr ⟨hc, hinp⟩
  have hf : c.name ∈ (g0.fitFrame T).colNames := by
    show c.name ∈ ((keepCols (g0.inputOf T) T.cols ++
      concatMapCols dummyCols (lookupCols T.cols (g0.inputOf T))).map Column.name)
    rw [List.map_append]
    exact List.mem_append_left _ (List.mem_map_of_mem Column.name hkeep)
  exact zero_fill_aux g0 T U c.name hf hp

/-- Witness for C10: `sampleCat` lacks the passthrough column `f`, which
comes back zero-filled. -/
theorem passthrough_zero_fill_apply :
    (sampleFitF ∈ sampleFit.cols) ∧
    ∃ X, ((GetDummies.init none).fit sampleFit).transform sampleCat = some X ∧
      X.findCol sampleFitF.name = some (zeroCol sampleFitF.name sampleCat.nrows) :=
  ⟨by decide,
    passthrough_zero_fill (GetDummies.init none) sampleFit sampleCat sampleFitF
      (by decide) (by decide) (by decide) (by decide)⟩

end FastOneHot
